import Mathlib

/-!
Verification of the settings-consistency checker (`dycw/shell-pre-commit-hooks`):
a shallow embedding of the version gate (`common.py` / `run_bump2version.py`)
and of the structural matcher with deep freezing (`check_settings.py`),
with theorems settling the specification's claims about them.
-/

namespace PreCommitHooks

/-! ## Version gate (`run_bump2version.py` `Version`, `common.py` `check_versions`) -/

/-- `Version` from `run_bump2version.py`: a frozen dataclass of the three
numeric components.  The components are parsed from `(\d+)\.(\d+)\.(\d+)`
matches, hence non-negative. -/
structure Version where
  major : Nat
  minor : Nat
  patch : Nat
deriving DecidableEq, Repr

/-- `Version.bump_major`: `(major+1, 0, 0)`. -/
def Version.bump_major (v : Version) : Version := ⟨v.major + 1, 0, 0⟩

/-- `Version.bump_minor`: `(major, minor+1, 0)`. -/
def Version.bump_minor (v : Version) : Version := ⟨v.major, v.minor + 1, 0⟩

/-- `Version.bump_patch`: `(major, minor, patch+1)`. -/
def Version.bump_patch (v : Version) : Version := ⟨v.major, v.minor, v.patch + 1⟩

/-- The decision core of `check_versions` from `common.py` (the same test is
inlined in `_process` of `run_bump2version.py`): with the file I/O resolved,
`current` and `master` are the two parsed versions; the function returns
`none` ("the current is a correct bumping of master", ACCEPTED) when
`current ∈ {master.bump_major(), master.bump_minor(), master.bump_patch()}`,
and otherwise returns the patch-bumped master (REQUIRES_BUMP target). -/
def check_versions (current master : Version) : Option Version :=
  let patched := master.bump_patch
  if current = master.bump_major ∨ current = master.bump_minor ∨ current = patched
  then none
  else some patched

/-- Error raised when the version pattern does not occur exactly once in the
scanned text: in the code the tuple unpacking `(group,) = findall(...)`
raises `ValueError`; the spec names this condition MalformedVersionString. -/
inductive VersionError where
  | malformedVersionString
deriving DecidableEq, Repr

/-- `_read_versions` from `run_bump2version.py`, over the list of matches that
`findall(r"current_version = (\d+)\.(\d+)\.(\d+)$", text, flags=MULTILINE)`
produced (each match is the triple of digit groups, already as numbers):
the unpacking `(group,) = findall(...)` succeeds exactly when there is one
match, and the triple becomes the parsed `Version`; with zero or several
matches it raises (`_parse_version` of `common.py` has the same shape). -/
def _read_versions (ms : List (Nat × Nat × Nat)) : Except VersionError Version :=
  match ms with
  | [(major, minor, patch)] => .ok ⟨major, minor, patch⟩
  | _ => .error .malformedVersionString

/-! ## The Value data model (`check_settings.py`) -/

/-- The configuration data shape `check_settings.py` operates on: scalars
(strings, numbers, booleans, `None`), sequences (Python lists), frozensets
(the output of `freeze` on a sequence) and mappings (dicts and frozendicts,
association lists of key/value pairs). -/
inductive Value where
  | str : String → Value
  | int : Int → Value
  | bool : Bool → Value
  | null : Value
  | seq : List Value → Value
  | fset : List Value → Value
  | map : List (Value × Value) → Value
deriving Repr

/-- `is_iterable` from `check_settings.py`:
`isinstance(x, Iterable) and not isinstance(x, str)`.  Lists, frozensets and
mappings are iterable; strings are explicitly excluded, and numbers, booleans
and `None` are not `Iterable`. -/
def is_iterable : Value → Bool
  | .seq _ => true
  | .fset _ => true
  | .map _ => true
  | _ => false

mutual
/-- Python `==` on `Value`s: scalars compare by value, lists elementwise in
order, frozensets as sets (mutual membership up to `pyEq`), and mappings as
dicts (every key/value pair of each side matched by a pair of the other;
with the unique keys of a Python dict this is dict equality).  Python's
numeric cross-type equality (`True == 1`) is not modelled; the configuration
data the checker compares never mixes those types. -/
def pyEq : Value → Value → Bool
  | .str a, .str b => a == b
  | .int a, .int b => a == b
  | .bool a, .bool b => a == b
  | .null, .null => true
  | .seq a, .seq b => pyEqList a b
  | .fset a, .fset b => pySubset a b && pySubset b a
  | .map a, .map b => pyMapSub a b && pyMapSub b a
  | _, _ => false
termination_by a b => sizeOf a + sizeOf b

/-- Equality of Python lists: same length, `pyEq` elements in order. -/
def pyEqList : List Value → List Value → Bool
  | [], [] => true
  | x :: xs, y :: ys => pyEq x y && pyEqList xs ys
  | _, _ => false
termination_by xs ys => sizeOf xs + sizeOf ys

/-- Python `in`: membership of a value in a list of values, up to `pyEq`. -/
def pyMem : Value → List Value → Bool
  | _, [] => false
  | x, y :: ys => pyEq x y || pyMem x ys
termination_by x ys => sizeOf x + sizeOf ys

/-- Every element of the first list is a `pyMem` of the second. -/
def pySubset : List Value → List Value → Bool
  | [], _ => true
  | x :: xs, ys => pyMem x ys && pySubset xs ys
termination_by xs ys => sizeOf xs + sizeOf ys

/-- Every key/value pair of the first association list is matched, up to
`pyEq` on both components, by a pair of the second. -/
def pyMapSub : List (Value × Value) → List (Value × Value) → Bool
  | [], _ => true
  | p :: ps, qs => pyPairMem p qs && pyMapSub ps qs
termination_by ps qs => sizeOf ps + sizeOf qs

/-- A key/value pair is matched by some pair of the list. -/
def pyPairMem : Value × Value → List (Value × Value) → Bool
  | _, [] => false
  | (k, v), (k2, v2) :: qs => (pyEq k k2 && pyEq v v2) || pyPairMem (k, v) qs
termination_by p qs => sizeOf p + sizeOf qs
end

mutual
/-- `freeze` from `check_settings.py`: a mapping becomes a `frozendict` with
the same (unfrozen) keys and frozen values, any other iterable (list or
frozenset) becomes a `frozenset` of frozen elements, and anything else
(strings included) is returned unchanged.  A frozendict compares as a
mapping, so the model keeps the single `map` constructor for it. -/
def freeze : Value → Value
  | .map kvs => .map (freezePairs kvs)
  | .seq xs => .fset (freezeList xs)
  | .fset xs => .fset (freezeList xs)
  | .str s => .str s
  | .int n => .int n
  | .bool b => .bool b
  | .null => .null

/-- `map(freeze, x)` over the elements of an iterable. -/
def freezeList : List Value → List Value
  | [] => []
  | x :: xs => freeze x :: freezeList xs

/-- Freezing of a mapping's items: keys kept, values frozen. -/
def freezePairs : List (Value × Value) → List (Value × Value)
  | [] => []
  | (k, v) :: kvs => (k, freeze v) :: freezePairs kvs
end

/-- Python dict lookup `actual[key]`: the value of the first pair whose key
equals `key` (the keys of a Python dict are unique, so at most one pair can
match); `none` is the `KeyError` case. -/
def pyLookup : List (Value × Value) → Value → Option Value
  | [], _ => none
  | (k, v) :: kvs, key => if pyEq k key then some v else pyLookup kvs key

/-- Auxiliary for `pyDedup`: drop the elements already seen (up to `pyEq`). -/
def pyDedupAux (seen : List Value) : List Value → List Value
  | [] => []
  | x :: xs =>
    if pyMem x seen then pyDedupAux seen xs
    else x :: pyDedupAux (x :: seen) xs

/-- Python `set(...)` construction from an iterable: one representative per
`pyEq`-class, keeping first occurrences (the model fixes first-occurrence
order where CPython's set iteration order is unspecified). -/
def pyDedup (xs : List Value) : List Value := pyDedupAux [] xs

/-- Python `set(x)` on a frozen value, as used in
`set(freeze(actual)) - set(freeze(expected))`: a frozenset yields its
elements, a frozendict yields its keys (deduplicated in both cases).  In the
guarded branches of `check_value_or_values` the argument is always one of
those two shapes. -/
def setElems : Value → List Value
  | .fset xs => pyDedup xs
  | .map kvs => pyDedup (kvs.map Prod.fst)
  | _ => []

/-- Python iteration `for v in x` over an iterable value: a list or frozenset
yields its elements, a mapping yields its keys. -/
def iterElems : Value → List Value
  | .seq xs => xs
  | .fset xs => xs
  | .map kvs => kvs.map Prod.fst
  | _ => []

/-- Python `in` on a frozen value, as used in
`freeze(exp_val) not in freeze(actual)`: membership among a frozenset's
elements, or among a frozendict's keys. -/
def pyContains : Value → Value → Bool
  | .fset xs, x => pyMem x xs
  | .map kvs, x => pyMem x (kvs.map Prod.fst)
  | _, _ => false

/-- The fatal outcomes of `check_value_or_values` (`ValueError`s in the code):
a missing mapping key, a missing sequence value, or a value mismatch
("Differing values found"). -/
inductive Err where
  | missingKey : Value → Err
  | missingValue : Value → Err
  | valueMismatch : Value → Value → Err
deriving Repr

/-- The warnings `check_value_or_values` logs: an extra key of a mapping or an
extra value of a sequence; logged, never fatal. -/
inductive Warn where
  | extraKey : Value → Warn
  | extraValue : Value → Warn
deriving Repr

/-- The `for extra in set(freeze(actual)) - set(freeze(expected))` loop: one
warning per element of the frozen actual (keys of a mapping, elements of a
sequence) that is not an element of the frozen expected, labelled `key` or
`value` according to the branch taken. -/
def extraWarns (isKey : Bool) (actual expected : Value) : List Warn :=
  ((setElems (freeze actual)).filter
      (fun x => !(pyMem x (setElems (freeze expected))))).map
    (fun x => if isKey then Warn.extraKey x else Warn.extraValue x)

/-- The `for exp_val in expected: if freeze(exp_val) not in freeze(actual)`
loop of the non-mapping branch: raise `Missing value` at the first expected
element whose frozen form is not contained in the frozen actual. -/
def checkValues (frozenActual : Value) : List Value → Except Err Unit
  | [] => .ok ()
  | e :: rest =>
    if pyContains frozenActual (freeze e) then checkValues frozenActual rest
    else .error (.missingValue e)

mutual
/-- `check_value_or_values` from `check_settings.py`.  When both sides are
iterable: two mappings are compared key by key (`Missing key` on an absent
key, recursion on the values); any other pair of iterables is compared by
frozen membership of each element iterated from `expected` (`Missing value`
when absent); afterwards one extra-key/extra-value warning is logged per
surplus element of the frozen actual.  Otherwise the two sides must be equal
(`Differing values found`).  Exceptions short-circuit; the model returns the
warnings accumulated along the successful paths. -/
def check_value_or_values (actual expected : Value) : Except Err (List Warn) :=
  if is_iterable actual && is_iterable expected then
    match actual, expected with
    | .map akvs, .map ekvs => do
        let ws ← checkKeys akvs ekvs
        .ok (ws ++ extraWarns true actual expected)
    | _, _ => do
        let _ ← checkValues (freeze actual) (iterElems expected)
        .ok (extraWarns false actual expected)
  else
    if pyEq actual expected then .ok []
    else .error (.valueMismatch actual expected)
termination_by sizeOf expected

/-- The `for key, exp_val in expected.items()` loop of the mapping branch:
look each expected key up in `actual` (`Missing key` on the `KeyError`) and
recurse on the value. -/
def checkKeys (akvs ekvs : List (Value × Value)) : Except Err (List Warn) :=
  match ekvs with
  | [] => .ok []
  | (k, ev) :: rest =>
    match pyLookup akvs k with
    | none => .error (.missingKey k)
    | some av => do
        let ws ← check_value_or_values av ev
        let ws2 ← checkKeys akvs rest
        .ok (ws ++ ws2)
termination_by sizeOf ekvs
end

/-- The frozen-membership test of the spec's sequence clause: every element of
`exs`, after freezing, is a member of the frozen elements of `axs`. -/
def seqSub (axs exs : List Value) : Bool :=
  exs.all (fun e => pyMem (freeze e) (freezeList axs))

mutual
/-- The specification's subset condition, stated from its words
("`match(actual, expected)` succeeds whenever every key/value in `expected`
is present in `actual`"): for mappings, every expected key is present with a
recursively subset value; for sequences (frozensets included), every
expected element is, after freezing, a member of the frozen actual elements;
any other pair of shapes must be equal.  This is the specification side of
the refinement claim, to be compared with `check_value_or_values`. -/
def spec_subset : Value → Value → Bool
  | .map akvs, .map ekvs => spec_subsetKeys akvs ekvs
  | .seq axs, .seq exs => seqSub axs exs
  | .seq axs, .fset exs => seqSub axs exs
  | .fset axs, .seq exs => seqSub axs exs
  | .fset axs, .fset exs => seqSub axs exs
  | a, e => pyEq a e
termination_by _ e => sizeOf e

/-- Every expected key is present in the actual mapping and its value is
recursively `spec_subset`. -/
def spec_subsetKeys : List (Value × Value) → List (Value × Value) → Bool
  | _, [] => true
  | akvs, (k, ev) :: rest =>
    (match pyLookup akvs k with
     | some av => spec_subset av ev
     | none => false) && spec_subsetKeys akvs rest
termination_by _ ekvs => sizeOf ekvs
end

/-- `isinstance(x, Mapping)`: the discrimination the mapping branch of
`check_value_or_values` makes. -/
def isMap : Value → Bool
  | .map _ => true
  | _ => false

/-- Keys of an association list are pairwise distinct under `pyEq`, as the
keys of a Python dict always are. -/
def distinctKeys : List (Value × Value) → Bool
  | [] => true
  | (k, _) :: rest => rest.all (fun q => !(pyEq k q.1)) && distinctKeys rest

mutual
/-- Well-formedness of a `Value` as a Python object: every mapping inside it
has pairwise-distinct keys (a Python dict cannot hold two equal keys). -/
def wf : Value → Bool
  | .seq xs => wfList xs
  | .fset xs => wfList xs
  | .map kvs => distinctKeys kvs && wfPairs kvs
  | _ => true

/-- All elements well-formed. -/
def wfList : List Value → Bool
  | [] => true
  | x :: xs => wf x && wfList xs

/-- All keys and values well-formed. -/
def wfPairs : List (Value × Value) → Bool
  | [] => true
  | (k, v) :: kvs => wf k && wf v && wfPairs kvs
end

/-! ## Theorems -/

/-! ### Structural induction over `Value` and basic lemmas -/

/-- Structural induction for the nested inductive `Value`: the collection
cases receive the inductive hypothesis for every element. -/
theorem Value.induct (P : Value → Prop)
    (hstr : ∀ s, P (Value.str s))
    (hint : ∀ n, P (Value.int n))
    (hbool : ∀ b, P (Value.bool b))
    (hnull : P Value.null)
    (hseq : ∀ xs, (∀ x ∈ xs, P x) → P (Value.seq xs))
    (hfset : ∀ xs, (∀ x ∈ xs, P x) → P (Value.fset xs))
    (hmap : ∀ kvs, (∀ p ∈ kvs, P p.1 ∧ P p.2) → P (Value.map kvs)) :
    ∀ v, P v := by
  have H : ∀ n : Nat, ∀ v : Value, sizeOf v ≤ n → P v := by
    intro n
    induction n with
    | zero =>
      intro v hv
      exfalso
      cases v <;> simp at hv
    | succ n ih =>
      intro v hv
      cases v with
      | str s => exact hstr s
      | int m => exact hint m
      | bool b => exact hbool b
      | null => exact hnull
      | seq xs =>
        refine hseq xs fun x hx => ih x ?_
        have h1 := List.sizeOf_lt_of_mem hx
        simp at hv
        omega
      | fset xs =>
        refine hfset xs fun x hx => ih x ?_
        have h1 := List.sizeOf_lt_of_mem hx
        simp at hv
        omega
      | map kvs =>
        refine hmap kvs fun p hp => ?_
        have h1 := List.sizeOf_lt_of_mem hp
        obtain ⟨k, val⟩ := p
        simp at hv h1
        exact ⟨ih k (by omega), ih val (by omega)⟩
  exact fun v => H (sizeOf v) v le_rfl

/-- `pyMem` membership is existence of a `pyEq`-equal element. -/
theorem pyMem_iff (x : Value) (ys : List Value) :
    pyMem x ys = true ↔ ∃ y ∈ ys, pyEq x y = true := by
  induction ys with
  | nil => simp [pyMem]
  | cons y ys ih => simp [pyMem, ih]

/-- `pySubset` is elementwise `pyMem`. -/
theorem pySubset_iff (xs ys : List Value) :
    pySubset xs ys = true ↔ ∀ x ∈ xs, pyMem x ys = true := by
  induction xs with
  | nil => simp [pySubset]
  | cons x xs ih => simp [pySubset, ih]

/-- `pyPairMem` is existence of a pair with `pyEq` components. -/
theorem pyPairMem_iff (p : Value × Value) (qs : List (Value × Value)) :
    pyPairMem p qs = true ↔
      ∃ q ∈ qs, pyEq p.1 q.1 = true ∧ pyEq p.2 q.2 = true := by
  obtain ⟨k, v⟩ := p
  induction qs with
  | nil => simp [pyPairMem]
  | cons q qs ih =>
    obtain ⟨k2, v2⟩ := q
    simp [pyPairMem, ih]

/-- `pyMapSub` is pairwise `pyPairMem`. -/
theorem pyMapSub_iff (ps qs : List (Value × Value)) :
    pyMapSub ps qs = true ↔ ∀ p ∈ ps, pyPairMem p qs = true := by
  induction ps with
  | nil => simp [pyMapSub]
  | cons p ps ih => simp [pyMapSub, ih]

/-- `pyEq` is reflexive (every Python value equals itself; the configuration
values at hand contain no NaN). -/
theorem pyEq_refl : ∀ v : Value, pyEq v v = true := by
  apply Value.induct
  · intro s; simp [pyEq]
  · intro n; simp [pyEq]
  · intro b; simp [pyEq]
  · simp [pyEq]
  · intro xs ih
    simp only [pyEq]
    induction xs with
    | nil => simp [pyEqList]
    | cons x xs ih2 =>
      rw [pyEqList]
      simp only [Bool.and_eq_true]
      exact ⟨ih x (by simp), ih2 fun y hy => ih y (by simp [hy])⟩
  · intro xs ih
    simp only [pyEq, Bool.and_eq_true]
    constructor <;>
      exact (pySubset_iff xs xs).mpr fun x hx =>
        (pyMem_iff x xs).mpr ⟨x, hx, ih x hx⟩
  · intro kvs ih
    simp only [pyEq, Bool.and_eq_true]
    constructor <;>
      exact (pyMapSub_iff kvs kvs).mpr fun p hp =>
        (pyPairMem_iff p kvs).mpr ⟨p, hp, (ih p hp).1, (ih p hp).2⟩

/-- A list member is a `pyMem`. -/
theorem pyMem_of_mem {x : Value} {ys : List Value} (h : x ∈ ys) :
    pyMem x ys = true :=
  (pyMem_iff x ys).mpr ⟨x, h, pyEq_refl x⟩

/-- `freezeList` is `List.map freeze`. -/
theorem freezeList_eq_map (xs : List Value) : freezeList xs = xs.map freeze := by
  induction xs with
  | nil => simp [freezeList]
  | cons x xs ih => simp [freezeList, ih]

/-- `freezePairs` maps `freeze` over the values and keeps the keys. -/
theorem freezePairs_eq_map (kvs : List (Value × Value)) :
    freezePairs kvs = kvs.map fun p => (p.1, freeze p.2) := by
  induction kvs with
  | nil => simp [freezePairs]
  | cons p kvs ih =>
    obtain ⟨k, v⟩ := p
    simp [freezePairs, ih]

/-- Elementwise idempotence lifts to `freezeList`. -/
theorem freezeList_freezeList (xs : List Value)
    (ih : ∀ x ∈ xs, freeze (freeze x) = freeze x) :
    freezeList (freezeList xs) = freezeList xs := by
  induction xs with
  | nil => rfl
  | cons x xs ih2 =>
    simp only [freezeList]
    rw [ih x (List.mem_cons_self x xs),
      ih2 fun y hy => ih y (List.mem_cons_of_mem x hy)]

/-- Valuewise idempotence lifts to `freezePairs`. -/
theorem freezePairs_freezePairs (kvs : List (Value × Value))
    (ih : ∀ p ∈ kvs, freeze (freeze p.2) = freeze p.2) :
    freezePairs (freezePairs kvs) = freezePairs kvs := by
  induction kvs with
  | nil => rfl
  | cons p kvs ih2 =>
    obtain ⟨k, v⟩ := p
    simp only [freezePairs]
    rw [ih (k, v) (List.mem_cons_self _ _),
      ih2 fun q hq => ih q (List.mem_cons_of_mem _ hq)]

/-- `freeze` is literally idempotent in the model: the frozen form is a fixed
point of freezing. -/
theorem freeze_freeze : ∀ v : Value, freeze (freeze v) = freeze v := by
  apply Value.induct
  · intro s; rfl
  · intro n; rfl
  · intro b; rfl
  · rfl
  · intro xs ih
    simp only [freeze]
    rw [freezeList_freezeList xs ih]
  · intro xs ih
    simp only [freeze]
    rw [freezeList_freezeList xs ih]
  · intro kvs ih
    simp only [freeze]
    rw [freezePairs_freezePairs kvs fun p hp => (ih p hp).2]

/-! ### Lemmas about the matcher -/

/-- Binding an `Except Err Unit` in front of a fixed `ok` succeeds exactly
when the bound computation does. -/
theorem bindOk_iff (r : Except Err Unit) (w : List Warn) :
    (∃ ws, (do let _ ← r; Except.ok w : Except Err (List Warn)) = .ok ws) ↔
      r = .ok () := by
  cases r with
  | ok u => cases u; simp [Bind.bind, Except.bind]
  | error e => simp [Bind.bind, Except.bind]

/-- The missing-value loop succeeds exactly when every expected element's
frozen form is contained in the frozen actual. -/
theorem checkValues_ok_iff (fa : Value) (es : List Value) :
    checkValues fa es = .ok () ↔
      ∀ e ∈ es, pyContains fa (freeze e) = true := by
  induction es with
  | nil => simp [checkValues]
  | cons e es ih =>
    by_cases h : pyContains fa (freeze e) = true
    · simp [checkValues, h, ih]
    · simp [checkValues, h]

/-- Matching a value against itself produces no extra-key/extra-value
warnings: nothing of the frozen actual is outside the frozen expected. -/
theorem extraWarns_self (d : Bool) (v : Value) : extraWarns d v v = [] := by
  unfold extraWarns
  rw [List.filter_eq_nil_iff.mpr fun x hx => by simp [pyMem_of_mem hx]]
  rfl

/-- On two iterables that are not both mappings, `check_value_or_values`
takes the membership branch. -/
theorem check_nonmap_eq (actual expected : Value)
    (ha : is_iterable actual = true) (he : is_iterable expected = true)
    (hnm : isMap actual = false ∨ isMap expected = false) :
    check_value_or_values actual expected =
      (do let _ ← checkValues (freeze actual) (iterElems expected)
          Except.ok (extraWarns false actual expected)) := by
  cases actual <;> cases expected <;>
    simp_all [is_iterable, isMap, check_value_or_values]

/-- On two mappings, `check_value_or_values` takes the key branch. -/
theorem check_map_eq (akvs ekvs : List (Value × Value)) :
    check_value_or_values (.map akvs) (.map ekvs) =
      (do let ws ← checkKeys akvs ekvs
          Except.ok (ws ++ extraWarns true (.map akvs) (.map ekvs))) := by
  simp [check_value_or_values, is_iterable]

/-- With at least one non-iterable side, `check_value_or_values` compares
for equality. -/
theorem check_scalar_eq (actual expected : Value)
    (h : is_iterable actual = false ∨ is_iterable expected = false) :
    check_value_or_values actual expected =
      (if pyEq actual expected = true then .ok []
       else .error (.valueMismatch actual expected)) := by
  cases actual <;> cases expected <;>
    simp_all [is_iterable, check_value_or_values]

/-- In a dict (pairwise-distinct keys), looking up the key of any entry finds
that entry's value. -/
theorem pyLookup_self (kvs : List (Value × Value)) (hd : distinctKeys kvs = true) :
    ∀ p ∈ kvs, pyLookup kvs p.1 = some p.2 := by
  induction kvs with
  | nil => simp
  | cons q rest ih =>
    obtain ⟨k, v⟩ := q
    simp only [distinctKeys, Bool.and_eq_true, List.all_eq_true] at hd
    intro p hp
    rcases List.mem_cons.mp hp with h | h
    · subst h
      simp [pyLookup, pyEq_refl]
    · have hne : pyEq k p.1 = false := by
        have := hd.1 p h
        simpa using this
      have hstep : pyLookup ((k, v) :: rest) p.1 = pyLookup rest p.1 := by
        simp [pyLookup, hne]
      rw [hstep]
      exact ih hd.2 p h

/-- Members of a well-formed list of values are well-formed. -/
theorem wfList_mem {xs : List Value} (h : wfList xs = true) :
    ∀ x ∈ xs, wf x = true := by
  induction xs with
  | nil => simp
  | cons x xs ih =>
    simp only [wfList, Bool.and_eq_true] at h
    intro y hy
    rcases List.mem_cons.mp hy with rfl | hy
    · exact h.1
    · exact ih h.2 y hy

/-- Keys and values of a well-formed pair list are well-formed. -/
theorem wfPairs_mem {kvs : List (Value × Value)} (h : wfPairs kvs = true) :
    ∀ p ∈ kvs, wf p.1 = true ∧ wf p.2 = true := by
  induction kvs with
  | nil => simp
  | cons q kvs ih =>
    obtain ⟨k, v⟩ := q
    simp only [wfPairs, Bool.and_eq_true] at h
    intro p hp
    rcases List.mem_cons.mp hp with rfl | hp
    · exact ⟨h.1.1, h.1.2⟩
    · exact ih h.2 p hp

/-- The key loop applied to entries that all look themselves up and
self-match returns no warnings and no error. -/
theorem checkKeys_refl (kvs : List (Value × Value)) :
    ∀ rest, (∀ p ∈ rest, pyLookup kvs p.1 = some p.2) →
      (∀ p ∈ rest, check_value_or_values p.2 p.2 = .ok []) →
      checkKeys kvs rest = .ok [] := by
  intro rest
  induction rest with
  | nil =>
    intro _ _
    simp [checkKeys]
  | cons p rest ih =>
    obtain ⟨k, ev⟩ := p
    intro hlk hrec
    have h1 : pyLookup kvs k = some ev := hlk (k, ev) (List.mem_cons_self _ _)
    have h2 : check_value_or_values ev ev = .ok [] :=
      hrec (k, ev) (List.mem_cons_self _ _)
    have h3 : checkKeys kvs rest = .ok [] :=
      ih (fun q hq => hlk q (List.mem_cons_of_mem _ hq))
        (fun q hq => hrec q (List.mem_cons_of_mem _ hq))
    simp [checkKeys, h1, h2, h3, Bind.bind, Except.bind]

/-- The key loop succeeds when every expected entry's key resolves and the
recursive check on its value succeeds. -/
theorem checkKeys_ok (akvs : List (Value × Value)) :
    ∀ ekvs, spec_subsetKeys akvs ekvs = true →
      (∀ p ∈ ekvs, ∀ a, spec_subset a p.2 = true →
        ∃ ws, check_value_or_values a p.2 = .ok ws) →
      ∃ ws, checkKeys akvs ekvs = .ok ws := by
  intro ekvs
  induction ekvs with
  | nil =>
    intro _ _
    exact ⟨[], by simp [checkKeys]⟩
  | cons p rest ih =>
    obtain ⟨k, ev⟩ := p
    intro hsub hrec
    rw [spec_subsetKeys] at hsub
    simp only [Bool.and_eq_true] at hsub
    cases hlk : pyLookup akvs k with
    | none =>
      rw [hlk] at hsub
      simp at hsub
    | some av =>
      rw [hlk] at hsub
      obtain ⟨ws1, hws1⟩ := hrec (k, ev) (List.mem_cons_self _ _) av hsub.1
      obtain ⟨ws2, hws2⟩ :=
        ih hsub.2 fun q hq => hrec q (List.mem_cons_of_mem _ hq)
      exact ⟨ws1 ++ ws2,
        by simp [checkKeys, hlk, hws1, hws2, Bind.bind, Except.bind]⟩

/-- C1: `check_versions` accepts (returns `none`) exactly when `current` is one
of the three legal bumps of `master`, and in every other case (the unchanged
version and arbitrary jumps included) it returns precisely the patch-bumped
`master`. -/
theorem spec_c1 (current master : Version) :
    (check_versions current master = none ↔
      current = master.bump_major ∨ current = master.bump_minor ∨
        current = master.bump_patch) ∧
    (check_versions current master = none ∨
      check_versions current master = some master.bump_patch) := by
  unfold check_versions
  by_cases h : current = master.bump_major ∨ current = master.bump_minor ∨
      current = master.bump_patch
  · simp [h]
  · simp [h]

/-- C8: reading a version out of scanned text is a fatal
`MalformedVersionString` error exactly when the number of pattern matches is
not one; a single match `(a, b, c)` yields the parsed `Version a b c`. -/
theorem spec_c8 (ms : List (Nat × Nat × Nat)) :
    ((_read_versions ms).isOk = true ↔ ms.length = 1) ∧
    (∀ a b c, ms = [(a, b, c)] →
      _read_versions ms = .ok ⟨a, b, c⟩) := by
  constructor
  · match ms with
    | [] => simp [_read_versions, Except.isOk, Except.toBool]
    | [(a, b, c)] => simp [_read_versions, Except.isOk, Except.toBool]
    | x :: y :: rest => simp [_read_versions, Except.isOk, Except.toBool]
  · rintro a b c rfl
    rfl

/-- A frozen-elementwise characterization of `pySubset` on frozen lists. -/
theorem pySubset_freezeList_iff (u v : List Value) :
    pySubset (freezeList u) (freezeList v) = true ↔
      ∀ x ∈ u, ∃ y ∈ v, pyEq (freeze x) (freeze y) = true := by
  rw [pySubset_iff]
  constructor
  · intro h x hx
    have hm := h (freeze x)
      (by rw [freezeList_eq_map]; exact List.mem_map_of_mem freeze hx)
    rw [pyMem_iff] at hm
    obtain ⟨y, hy, hxy⟩ := hm
    rw [freezeList_eq_map] at hy
    obtain ⟨y0, hy0, rfl⟩ := List.mem_map.mp hy
    exact ⟨y0, hy0, hxy⟩
  · intro h x hx
    rw [freezeList_eq_map] at hx
    obtain ⟨x0, hx0, rfl⟩ := List.mem_map.mp hx
    obtain ⟨y0, hy0, hxy⟩ := h x0 hx0
    rw [pyMem_iff]
    exact ⟨freeze y0,
      by rw [freezeList_eq_map]; exact List.mem_map_of_mem freeze hy0, hxy⟩

/-- A successful equality test with a non-iterable expected yields `ok []`. -/
theorem check_of_pyEq (a e : Value) (he : is_iterable e = false)
    (h : pyEq a e = true) : check_value_or_values a e = .ok [] := by
  rw [check_scalar_eq a e (Or.inr he), if_pos h]

/-- C2 fails on the code: freezing goes through `frozenset`, which discards
multiplicities, so `[1, 1]` freezes equal to `[1]` even though the two
sequences are not the same multiset. -/
theorem spec_c2_counterexample :
    pyEq (freeze (.seq [.int 1, .int 1])) (freeze (.seq [.int 1])) = true ∧
      ¬ ([Value.int 1, Value.int 1].Perm [Value.int 1]) := by
  constructor
  · simp [freeze, freezeList, pyEq, pySubset, pyMem]
  · intro h
    simpa using h.length_eq

/-- C2 amended: two frozen sequences are equal iff they contain the same set
of elements (up to recursive frozen equality), ignoring both order and
multiplicity; duplicates are discarded by freezing. -/
theorem spec_c2 (a b : List Value) :
    pyEq (freeze (.seq a)) (freeze (.seq b)) = true ↔
      ((∀ x ∈ a, ∃ y ∈ b, pyEq (freeze x) (freeze y) = true) ∧
        (∀ y ∈ b, ∃ x ∈ a, pyEq (freeze y) (freeze x) = true)) := by
  simp only [freeze, pyEq, Bool.and_eq_true]
  rw [pySubset_freezeList_iff a b, pySubset_freezeList_iff b a]

/-- C3 fails on the code: a Mapping actual against a Sequence expected is
sent to the membership branch, where iterating the frozen mapping tests its
keys, so `match({"a": 1}, ["a"])` succeeds (with no warnings) despite the
shape mismatch. -/
theorem spec_c3_counterexample :
    check_value_or_values (.map [(.str "a", .int 1)]) (.seq [.str "a"]) =
      .ok [] := by
  simp [check_value_or_values, checkValues, is_iterable, iterElems, freeze,
    freezeList, freezePairs, pyContains, pyMem, pyEq, extraWarns, setElems,
    pyDedup, pyDedupAux, Bind.bind, Except.bind]

/-- C3 amended: when the two sides are both iterable but not both mappings,
the matcher succeeds exactly when every element iterated from `expected`
(its keys, for a mapping) has its frozen form contained in `freeze(actual)`
(as an element of a frozen sequence, or a key of a frozen mapping); a
Mapping/Sequence shape mismatch is therefore not always a failure. -/
theorem spec_c3 (actual expected : Value)
    (ha : is_iterable actual = true) (he : is_iterable expected = true)
    (hnm : isMap actual = false ∨ isMap expected = false) :
    ((∃ ws, check_value_or_values actual expected = .ok ws) ↔
      ∀ e ∈ iterElems expected,
        pyContains (freeze actual) (freeze e) = true) := by
  rw [check_nonmap_eq actual expected ha he hnm, bindOk_iff]
  exact checkValues_ok_iff _ _

/-- Witness for C3 (amended) at a concrete input: a Mapping expected against
a Sequence actual whose elements cover the keys succeeds. -/
theorem spec_c3_witness :
    ∃ ws, check_value_or_values (.seq [.str "a"])
      (.map [(.str "a", .int 1)]) = .ok ws := by
  refine (spec_c3 (.seq [.str "a"]) (.map [(.str "a", .int 1)]) rfl rfl
    (Or.inl rfl)).mpr ?_
  intro e he
  simp only [iterElems, List.map] at he
  simp at he
  subst he
  simp [freeze, freezeList, pyContains, pyMem, pyEq]

/-- C5: the matcher fails exactly on absent or mismatched expected structure,
at the spec's concrete inputs: `match({}, {"a": 1})` is MissingKey "a",
`match([1,2], [1,2,3])` is MissingValue 3, `match(5, 6)` is
ValueMismatch 5 6, and `match("x", "x")` succeeds. -/
theorem spec_c5 :
    check_value_or_values (.map []) (.map [(.str "a", .int 1)]) =
        .error (.missingKey (.str "a")) ∧
      check_value_or_values (.seq [.int 1, .int 2])
          (.seq [.int 1, .int 2, .int 3]) =
        .error (.missingValue (.int 3)) ∧
      check_value_or_values (.int 5) (.int 6) =
        .error (.valueMismatch (.int 5) (.int 6)) ∧
      check_value_or_values (.str "x") (.str "x") = .ok [] := by
  refine ⟨?_, ?_, ?_, ?_⟩
  · simp [check_value_or_values, checkKeys, is_iterable, pyLookup,
      Bind.bind, Except.bind]
  · simp [check_value_or_values, checkValues, is_iterable, iterElems, freeze,
      freezeList, pyContains, pyMem, pyEq, Bind.bind, Except.bind]
  · simp [check_value_or_values, is_iterable, pyEq]
  · simp [check_value_or_values, is_iterable, pyEq]

/-- C6: `freeze` is idempotent; the frozen form is a fixed point of freezing
(Python `==` on the two sides, which the model renders as `pyEq`). -/
theorem spec_c6 (v : Value) : pyEq (freeze (freeze v)) (freeze v) = true := by
  rw [freeze_freeze]
  exact pyEq_refl _

/-- C7: freezing a sequence is order-independent; permuted sequences freeze
equal. -/
theorem spec_c7 (s p : List Value) (h : s.Perm p) :
    pyEq (freeze (.seq s)) (freeze (.seq p)) = true := by
  have hmem : ∀ x, x ∈ freezeList s ↔ x ∈ freezeList p := by
    intro x
    rw [freezeList_eq_map, freezeList_eq_map]
    exact (h.map freeze).mem_iff
  simp only [freeze, pyEq, Bool.and_eq_true]
  rw [pySubset_iff, pySubset_iff]
  exact ⟨fun x hx => pyMem_of_mem ((hmem x).mp hx),
    fun x hx => pyMem_of_mem ((hmem x).mpr hx)⟩

/-- Witness for C7 at a concrete transposition. -/
theorem spec_c7_witness :
    pyEq (freeze (.seq [.int 1, .str "x"]))
      (freeze (.seq [.str "x", .int 1])) = true :=
  spec_c7 _ _ (List.Perm.swap (Value.str "x") (Value.int 1) [])

/-- C10: strings are scalars, never element sequences: two strings match
exactly when they are equal, and a string freezes to itself. -/
theorem spec_c10 (a b : String) :
    ((check_value_or_values (.str a) (.str b)).isOk = true ↔ a = b) ∧
      freeze (.str a) = .str a := by
  refine ⟨?_, rfl⟩
  by_cases h : a = b
  · subst h
    simp [check_value_or_values, is_iterable, pyEq, Except.isOk, Except.toBool]
  · simp [check_value_or_values, is_iterable, pyEq, h, Except.isOk,
      Except.toBool]

/-- Witness for C8 at concrete inputs: no match and two matches are malformed,
one match parses. -/
theorem spec_c8_witness :
    _read_versions [] = .error .malformedVersionString ∧
    _read_versions [(1, 2, 3), (1, 2, 3)] = .error .malformedVersionString ∧
    _read_versions [(1, 2, 3)] = .ok ⟨1, 2, 3⟩ := by
  refine ⟨?_, ?_, (spec_c8 [(1, 2, 3)]).2 1 2 3 rfl⟩
  · rfl
  · rfl

/-- Refinement direction of the subset policy: whenever the specification's
subset condition holds, `check_value_or_values` raises no error. -/
theorem spec_subset_check : ∀ e : Value, ∀ a, spec_subset a e = true →
    ∃ ws, check_value_or_values a e = .ok ws := by
  apply Value.induct (P := fun e => ∀ a, spec_subset a e = true →
    ∃ ws, check_value_or_values a e = .ok ws)
  · intro s a ha
    cases a <;>
      (simp only [spec_subset] at ha; exact ⟨[], check_of_pyEq _ _ rfl ha⟩)
  · intro n a ha
    cases a <;>
      (simp only [spec_subset] at ha; exact ⟨[], check_of_pyEq _ _ rfl ha⟩)
  · intro b a ha
    cases a <;>
      (simp only [spec_subset] at ha; exact ⟨[], check_of_pyEq _ _ rfl ha⟩)
  · intro a ha
    cases a <;>
      (simp only [spec_subset] at ha; exact ⟨[], check_of_pyEq _ _ rfl ha⟩)
  · intro exs _ a ha
    cases a with
    | seq axs =>
      simp only [spec_subset] at ha
      refine ⟨extraWarns false (.seq axs) (.seq exs), ?_⟩
      rw [check_nonmap_eq _ _ (by rfl) (by rfl) (Or.inl (by rfl))]
      have hcv : checkValues (freeze (.seq axs)) exs = .ok () := by
        rw [checkValues_ok_iff]
        intro e he
        simp only [freeze, pyContains]
        rw [seqSub] at ha
        exact List.all_eq_true.mp ha e he
      simp only [iterElems]
      rw [hcv]
      rfl
    | fset axs =>
      simp only [spec_subset] at ha
      refine ⟨extraWarns false (.fset axs) (.seq exs), ?_⟩
      rw [check_nonmap_eq _ _ (by rfl) (by rfl) (Or.inl (by rfl))]
      have hcv : checkValues (freeze (.fset axs)) exs = .ok () := by
        rw [checkValues_ok_iff]
        intro e he
        simp only [freeze, pyContains]
        rw [seqSub] at ha
        exact List.all_eq_true.mp ha e he
      simp only [iterElems]
      rw [hcv]
      rfl
    | map akvs => simp [spec_subset, pyEq] at ha
    | str s => simp [spec_subset, pyEq] at ha
    | int n => simp [spec_subset, pyEq] at ha
    | bool b => simp [spec_subset, pyEq] at ha
    | null => simp [spec_subset, pyEq] at ha
  · intro exs _ a ha
    cases a with
    | seq axs =>
      simp only [spec_subset] at ha
      refine ⟨extraWarns false (.seq axs) (.fset exs), ?_⟩
      rw [check_nonmap_eq _ _ (by rfl) (by rfl) (Or.inl (by rfl))]
      have hcv : checkValues (freeze (.seq axs)) exs = .ok () := by
        rw [checkValues_ok_iff]
        intro e he
        simp only [freeze, pyContains]
        rw [seqSub] at ha
        exact List.all_eq_true.mp ha e he
      simp only [iterElems]
      rw [hcv]
      rfl
    | fset axs =>
      simp only [spec_subset] at ha
      refine ⟨extraWarns false (.fset axs) (.fset exs), ?_⟩
      rw [check_nonmap_eq _ _ (by rfl) (by rfl) (Or.inl (by rfl))]
      have hcv : checkValues (freeze (.fset axs)) exs = .ok () := by
        rw [checkValues_ok_iff]
        intro e he
        simp only [freeze, pyContains]
        rw [seqSub] at ha
        exact List.all_eq_true.mp ha e he
      simp only [iterElems]
      rw [hcv]
      rfl
    | map akvs => simp [spec_subset, pyEq] at ha
    | str s => simp [spec_subset, pyEq] at ha
    | int n => simp [spec_subset, pyEq] at ha
    | bool b => simp [spec_subset, pyEq] at ha
    | null => simp [spec_subset, pyEq] at ha
  · intro ekvs ih a ha
    cases a with
    | map akvs =>
      simp only [spec_subset] at ha
      obtain ⟨ws, hws⟩ := checkKeys_ok akvs ekvs ha fun p hp => (ih p hp).2
      refine ⟨ws ++ extraWarns true (.map akvs) (.map ekvs), ?_⟩
      rw [check_map_eq, hws]
      rfl
    | seq axs => simp [spec_subset, pyEq] at ha
    | fset axs => simp [spec_subset, pyEq] at ha
    | str s => simp [spec_subset, pyEq] at ha
    | int n => simp [spec_subset, pyEq] at ha
    | bool b => simp [spec_subset, pyEq] at ha
    | null => simp [spec_subset, pyEq] at ha

/-- C4: whenever every key/value required by `expected` is recursively
present and matching in `actual` (the spec's subset condition), the matcher
succeeds; extra keys and values only ever surface as warnings inside the
returned list, never as failure. -/
theorem spec_c4 (actual expected : Value)
    (h : spec_subset actual expected = true) :
    ∃ ws, check_value_or_values actual expected = .ok ws :=
  spec_subset_check expected actual h

/-- Witness for C4 at a concrete input: an actual mapping with an extra key
matches the expected mapping. -/
theorem spec_c4_witness :
    ∃ ws, check_value_or_values
      (.map [(.str "a", .int 1), (.str "b", .int 2)])
      (.map [(.str "a", .int 1)]) = .ok ws :=
  spec_c4 _ _ (by
    simp [spec_subset, spec_subsetKeys, pyLookup, pyEq])

/-- Matching a well-formed value against itself succeeds with no warnings. -/
theorem check_self : ∀ v : Value, wf v = true →
    check_value_or_values v v = .ok [] := by
  apply Value.induct (P := fun v => wf v = true →
    check_value_or_values v v = .ok [])
  · intro s _
    exact check_of_pyEq _ _ rfl (pyEq_refl _)
  · intro n _
    exact check_of_pyEq _ _ rfl (pyEq_refl _)
  · intro b _
    exact check_of_pyEq _ _ rfl (pyEq_refl _)
  · intro _
    exact check_of_pyEq _ _ rfl (pyEq_refl _)
  · intro xs _ _
    have hcv : checkValues (freeze (.seq xs)) xs = .ok () := by
      rw [checkValues_ok_iff]
      intro e he
      simp only [freeze, pyContains]
      apply pyMem_of_mem
      rw [freezeList_eq_map]
      exact List.mem_map_of_mem freeze he
    rw [check_nonmap_eq _ _ (by rfl) (by rfl) (Or.inl (by rfl))]
    simp only [iterElems]
    rw [hcv]
    simp [Bind.bind, Except.bind, extraWarns_self]
  · intro xs _ _
    have hcv : checkValues (freeze (.fset xs)) xs = .ok () := by
      rw [checkValues_ok_iff]
      intro e he
      simp only [freeze, pyContains]
      apply pyMem_of_mem
      rw [freezeList_eq_map]
      exact List.mem_map_of_mem freeze he
    rw [check_nonmap_eq _ _ (by rfl) (by rfl) (Or.inl (by rfl))]
    simp only [iterElems]
    rw [hcv]
    simp [Bind.bind, Except.bind, extraWarns_self]
  · intro kvs ih hwf
    simp only [wf, Bool.and_eq_true] at hwf
    have hck : checkKeys kvs kvs = .ok [] :=
      checkKeys_refl kvs kvs (pyLookup_self kvs hwf.1)
        fun p hp => (ih p hp).2 ((wfPairs_mem hwf.2 p hp).2)
    rw [check_map_eq, hck]
    simp [Bind.bind, Except.bind, extraWarns_self]

/-- C9: the matcher is reflexive on every well-formed value (each mapping
with the pairwise-distinct keys a Python dict guarantees): matching a value
against itself succeeds and emits no warnings. -/
theorem spec_c9 (v : Value) (h : wf v = true) :
    check_value_or_values v v = .ok [] :=
  check_self v h

/-- Witness for C9 at a concrete nested value. -/
theorem spec_c9_witness :
    check_value_or_values
      (.map [(.str "a", .int 1), (.str "b", .seq [.int 1, .str "x"])])
      (.map [(.str "a", .int 1), (.str "b", .seq [.int 1, .str "x"])]) =
      .ok [] :=
  spec_c9 _ (by simp [wf, wfList, wfPairs, distinctKeys, pyEq])

end PreCommitHooks
